import Mathlib

/-
Verification development for the study-plan scheduling engine.
Shallow embedding of src/utils/scheduler_utils.py and src/agents/planner_agent.py.

Conventions:
- Python session dicts are embedded as the `Session` structure; the keys are
  time, activity, duration, topic, session_type.  The source stores durations
  as strings such as '2 hours', '1 hour', '30 minutes', '15 minutes'; the
  embedding stores the corresponding number of minutes (120, 60, 30, 15).
- Python dicts mapping day labels to session lists are embedded as association
  lists in insertion order (`Sched`); dict assignment and append are embedded
  by `dictSet` and `dictAppend`, which edit the first matching key in place
  and otherwise add a new key at the end, exactly as a Python dict does.
- Topic difficulties are Python floats compared against 0.7 and 0.3; they are
  embedded as rationals.  The only float product taken by the code is
  int(base * 1.1) and int(base * 0.9) for base in {45, 60, 90}, where the
  float result truncates to the same value as exact rational arithmetic, so
  the embedding uses natural-number division by 10.
-/

namespace ScholarMate

/-- A scheduled session, embedding the Python session dict.  `topic` is an
Option because `session.get('topic')` yields None when the key is absent. -/
structure Session where
  time : String
  activity : String
  duration : Nat
  topic : Option String
  session_type : String
deriving DecidableEq, Repr

/-- A schedule: Python dict from day label to session list, in insertion order. -/
abbrev Sched := List (String × List Session)

/-- Topic-hours schedule returned by optimize_topic_distribution:
dict from day label to list of (topic, hours) pairs. -/
abbrev TSched := List (String × List (String × Nat))

/-- Python `d[key].append(v)`: append to the list at the first matching key;
if the key is absent, create it at the end holding the single element. -/
def dictAppend {α : Type} (sched : List (String × List α)) (key : String) (v : α) :
    List (String × List α) :=
  match sched with
  | [] => [(key, [v])]
  | (k, vs) :: rest =>
    if k = key then (k, vs ++ [v]) :: rest else (k, vs) :: dictAppend rest key v

/-- Python `if key not in d: d[key] = []`. -/
def ensureKey {α : Type} (sched : List (String × List α)) (key : String) :
    List (String × List α) :=
  if sched.any (fun p => p.1 == key) then sched else sched ++ [(key, [])]

/-- Python `d[key] = v`: replace the value at the first matching key in place,
or add the key at the end. -/
def dictSet {α : Type} (sched : List (String × α)) (key : String) (v : α) :
    List (String × α) :=
  match sched with
  | [] => [(key, v)]
  | (k, w) :: rest =>
    if k = key then (k, v) :: rest else (k, w) :: dictSet rest key v

/-- Python `d[key]` for a key known to be present (absent keys read as []). -/
def listGet {α : Type} (sched : List (String × List α)) (key : String) : List α :=
  match sched.find? (fun p => p.1 == key) with
  | some p => p.2
  | none => []

/-- `text.split(sep)` on the underlying character list: splitting the empty
text yields one empty field, and every separator occurrence starts a new
field, as in Python str.split with an explicit separator. -/
def splitCharsOn (sep : Char) : List Char → List (List Char)
  | [] => [[]]
  | c :: cs =>
    let r := splitCharsOn sep cs
    if c = sep then [] :: r
    else
      match r with
      | g :: gs => (c :: g) :: gs
      | [] => [[c]]

/-- Decimal digits to a number; none when empty or not all digits. -/
def digitsToNat? (cs : List Char) : Option Nat :=
  if cs ≠ [] ∧ cs.all Char.isDigit then
    some (cs.foldl (fun n c => n * 10 + (c.toNat - 48)) 0)
  else none

/-- Python int() on a string: an optional sign followed by decimal digits
(surrounding whitespace, which int() also strips, does not occur in the
inputs the engine builds). -/
def strToInt? (s : String) : Option Int :=
  match s.data with
  | '-' :: rest => (digitsToNat? rest).map (fun n => -(n : Int))
  | '+' :: rest => (digitsToNat? rest).map (fun n => (n : Int))
  | cs => (digitsToNat? cs).map (fun n => (n : Int))

/-- Embeds `datetime.strptime(time_str, '%H:%M')`: two ':'-separated numeric
fields of at most two digits, hour below 24, minute below 60. -/
def parseTime (s : String) : Option (Nat × Nat) :=
  match splitCharsOn ':' s.data with
  | [hs, ms] =>
    match digitsToNat? hs, digitsToNat? ms with
    | some h, some m =>
      if hs.length ≤ 2 && ms.length ≤ 2 && h ≤ 23 && m ≤ 59 then some (h, m) else none
    | _, _ => none
  | _ => none

/-- Two-digit zero padding used by strftime('%H:%M'). -/
def pad2 (n : Nat) : String := if n < 10 then "0" ++ Nat.repr n else Nat.repr n

/-- SchedulerUtils._add_minutes_to_time / PlannerAgent._add_minutes_to_time:
parse, add the minutes (wrapping across midnight as datetime does when
reformatted with %H:%M), and reformat; on a parse failure return the input
string unchanged (the bare except branch). -/
def add_minutes_to_time (time_str : String) (minutes : Nat) : String :=
  match parseTime time_str with
  | some (h, m) =>
    let total := (h * 60 + m + minutes) % 1440
    pad2 (total / 60) ++ ":" ++ pad2 (total % 60)
  | none => time_str

/-- Day label used by optimize_topic_distribution: f"Day {current_day + 1}". -/
def dayKey (i : Nat) : String := "Day " ++ Nat.repr i

/-- The inner `while topic_hours > 0` loop of
SchedulerUtils.optimize_topic_distribution, returning the updated schedule,
current_day and hours_remaining_today.  The loop allocates
min(topic_hours, hours_remaining_today) into the current day, advances to the
next day when the current day is full, and breaks out (returning) once
current_day reaches available_days. -/
def allocLoop (available_days daily_hours : Nat) (topic : String)
    (topic_hours current_day hours_remaining_today : Nat) (schedule : TSched) :
    TSched × Nat × Nat :=
  if 0 < topic_hours then
    let dk := dayKey (current_day + 1)
    let sched1 := ensureKey schedule dk
    if h2 : 0 < hours_remaining_today then
      let hours_to_allocate := min topic_hours hours_remaining_today
      let sched2 := dictAppend sched1 dk (topic, hours_to_allocate)
      if 0 < hours_remaining_today - hours_to_allocate then
        allocLoop available_days daily_hours topic (topic_hours - hours_to_allocate)
          current_day (hours_remaining_today - hours_to_allocate) sched2
      else
        if available_days ≤ current_day + 1 then (sched2, current_day + 1, daily_hours)
        else
          allocLoop available_days daily_hours topic (topic_hours - hours_to_allocate)
            (current_day + 1) daily_hours sched2
    else
      if available_days ≤ current_day + 1 then (sched1, current_day + 1, daily_hours)
      else allocLoop available_days daily_hours topic topic_hours (current_day + 1) daily_hours sched1
  else (schedule, current_day, hours_remaining_today)
termination_by available_days - current_day + topic_hours
decreasing_by
  · omega
  · omega
  · omega

/-- The outer `for topic in topics` loop of optimize_topic_distribution: run
the allocation loop for each topic in turn, stopping (the outer break) once
current_day reaches available_days. -/
def distLoop (available_days daily_hours hours_per_topic : Nat) :
    List String → Nat → Nat → TSched → TSched
  | [], _, _, schedule => schedule
  | topic :: rest, current_day, hours_remaining_today, schedule =>
    let r := allocLoop available_days daily_hours topic hours_per_topic current_day
      hours_remaining_today schedule
    if available_days ≤ r.2.1 then r.1
    else distLoop available_days daily_hours hours_per_topic rest r.2.1 r.2.2 r.1

/-- SchedulerUtils.optimize_topic_distribution.  (With an empty topic list the
Python source raises ZeroDivisionError computing total_hours // len(topics);
the claims only concern non-empty topic lists, where Lean's division agrees.) -/
def optimize_topic_distribution (topics : List String) (available_days daily_hours : Nat) :
    TSched :=
  let total_hours := available_days * daily_hours
  let hours_per_topic := max 1 (total_hours / topics.length)
  distLoop available_days daily_hours hours_per_topic topics 0 daily_hours []

/-- `sorted(schedule.keys())` — lexicographic sort of the day labels. -/
def sortedKeys (schedule : Sched) : List String :=
  List.insertionSort (fun a b : String => a ≤ b) (schedule.map Prod.fst)

/-- The inner scan of apply_spaced_repetition over one day's sessions:
`if topic not in topic_first_appearance: topic_first_appearance[topic] = day`.
The accumulator is the insertion-ordered association list of the dict. -/
def recordTopics (day : String) (acc : List (Option String × String)) (ss : List Session) :
    List (Option String × String) :=
  ss.foldl (fun a s => if a.any (fun p => p.1 == s.topic) then a else a ++ [(s.topic, day)]) acc

/-- The first-appearance dict of apply_spaced_repetition, built by scanning the
days in sorted order. -/
def firstAppearances (schedule : Sched) (days : List String) :
    List (Option String × String) :=
  days.foldl (fun acc d => recordTopics d acc (listGet schedule d)) []

/-- The review session appended by apply_spaced_repetition; f'Review {topic}'
prints None for a missing topic. -/
def reviewSession (topic : Option String) : Session :=
  { time := "20:00", activity := "Review " ++ topic.getD "None", duration := 30,
    topic := topic, session_type := "review" }

/-- `if review_day in enhanced_schedule: enhanced_schedule[review_day].append(s)`. -/
def appendIfPresent (sched : Sched) (key : String) (s : Session) : Sched :=
  if sched.any (fun p => p.1 == key) then dictAppend sched key s else sched

/-- The `for interval in review_intervals` loop of apply_spaced_repetition for
one (topic, first_day) pair. -/
def addReviewsForTopic (days : List String) (enhanced : Sched)
    (topic : Option String) (first_day : String) : Sched :=
  ([1, 3, 7] : List Nat).foldl (fun acc interval =>
    let review_day_idx := days.indexOf first_day + interval
    if review_day_idx < days.length then
      appendIfPresent acc (days.getD review_day_idx "") (reviewSession topic)
    else acc) enhanced

/-- SchedulerUtils.apply_spaced_repetition.  The `topics` argument is accepted
and ignored exactly as in the source.  enhanced_schedule = schedule.copy() is
a shallow copy whose lists are appended to after the first-appearance scan has
completed, so starting from `schedule` and appending is observationally equal. -/
def apply_spaced_repetition (schedule : Sched) (topics : List String) : Sched :=
  let days := sortedKeys schedule
  let tfa := firstAppearances schedule days
  tfa.foldl (fun enh p => addReviewsForTopic days enh p.1 p.2) schedule

/-- Difficulty lookup `topic_difficulty.get(topic, 0.5)` with the
`session.get('topic', '')` default for a missing topic key. -/
def sessionDifficulty (topic_difficulty : List (String × ℚ)) (s : Session) : ℚ :=
  match topic_difficulty.find? (fun p => p.1 == s.topic.getD "") with
  | some p => p.2
  | none => (1 : ℚ) / 2

/-- The separation pass of balance_cognitive_load: one forward scan appending
each session to hard_sessions (difficulty > 0.7) or easy_sessions. -/
def splitByDifficulty (topic_difficulty : List (String × ℚ)) (sessions : List Session) :
    List Session × List Session :=
  sessions.foldl (fun acc s =>
    if (7 : ℚ) / 10 < sessionDifficulty topic_difficulty s
    then (acc.1 ++ [s], acc.2)
    else (acc.1, acc.2 ++ [s])) ([], [])

/-- The merge loop `while hard_sessions or easy_sessions`: pop one from hard
(if any), then one from easy (if any), repeating. -/
def interleaveSessions : List Session → List Session → List Session
  | h :: hs, e :: es => h :: e :: interleaveSessions hs es
  | h :: hs, [] => h :: interleaveSessions hs []
  | [], e :: es => e :: interleaveSessions [] es
  | [], [] => []
termination_by hs es => hs.length + es.length

/-- SchedulerUtils.balance_cognitive_load. -/
def balance_cognitive_load (schedule : Sched) (topic_difficulty : List (String × ℚ)) :
    Sched :=
  schedule.map (fun p =>
    let pr := splitByDifficulty topic_difficulty p.2
    (p.1, interleaveSessions pr.1 pr.2))

/-- The break session inserted by SchedulerUtils.add_breaks ('15 minutes'). -/
def mkBreak (break_interval : Nat) (s : Session) : Session :=
  { time := add_minutes_to_time s.time break_interval, activity := "Break",
    duration := 15, topic := some "Rest", session_type := "break" }

/-- One day of SchedulerUtils.add_breaks: after every focused_study or review
session that is not the day's last session (`i < len(sessions) - 1`), insert a
break. -/
def addBreaksDay (break_interval : Nat) : List Session → List Session
  | [] => []
  | [s] => [s]
  | s :: s2 :: rest =>
    if s.session_type == "focused_study" || s.session_type == "review" then
      s :: mkBreak break_interval s :: addBreaksDay break_interval (s2 :: rest)
    else
      s :: addBreaksDay break_interval (s2 :: rest)

/-- SchedulerUtils.add_breaks (break_interval defaults to 120 in the source). -/
def add_breaks (schedule : Sched) (break_interval : Nat) : Sched :=
  schedule.map (fun p => (p.1, addBreaksDay break_interval p.2))

/-- `int(time_of_day.split(':')[0])`: Python int() parses an optionally signed
integer and raises otherwise (the caught branch yields none). -/
def hourOf (time_of_day : String) : Option Int :=
  strToInt? (String.mk ((splitCharsOn ':' time_of_day.data).headD []))

/-- SchedulerUtils.calculate_optimal_session_length.  The difficulty-adjusted
base is 45 / 90 / 60; the time-of-day branch computes int(base * 1.1) or
int(base * 0.9), which for base in {45, 60, 90} equals base * 11 / 10 and
base * 9 / 10 in truncating natural division. -/
def calculate_optimal_session_length (difficulty : ℚ) (time_of_day : String) : Nat :=
  let base_length : Nat :=
    if (7 : ℚ) / 10 < difficulty then 45
    else if difficulty < (3 : ℚ) / 10 then 90
    else 60
  match hourOf time_of_day with
  | none => base_length
  | some hour =>
    if 6 ≤ hour ∧ hour < 12 then base_length * 11 / 10
    else if 12 ≤ hour ∧ hour < 18 then base_length
    else if 18 ≤ hour ∧ hour < 22 then base_length * 9 / 10
    else base_length

/-- Weekday names as produced by strftime('%A'), Monday-first to match
date.weekday(). -/
def weekNames : List String :=
  ["Monday", "Tuesday", "Wednesday", "Thursday", "Friday", "Saturday", "Sunday"]

/-- The day label strftime('%A') of start_date + day, where start_weekday is
the weekday index of start_date. -/
def dayName (n : Nat) : String := weekNames.getD (n % 7) "Monday"

/-- `topics[i % len(topics)]`.  (On an empty topic list Python raises
ZeroDivisionError; callers guarantee non-emptiness and the claims assume it.) -/
def topicAt (topics : List String) (i : Nat) : String := topics.getD (i % topics.length) ""

/-- One day of PlannerAgent._create_study_schedule: morning 09:00 slot of
'2 hours' when at least 2 hours remain, afternoon 14:00 slot of '2 hours'
(advancing topic_index) when at least 2 more remain, evening 19:00 review of
'1 hour' when at least 1 remains.  Returns the sessions and the updated
topic_index. -/
def makeDay (topics : List String) (daily_hours topic_index : Nat) :
    List Session × Nat :=
  let remaining := daily_hours
  let morning : List Session :=
    if 2 ≤ remaining then
      [{ time := "09:00", activity := "Study " ++ topicAt topics topic_index,
         duration := 120, topic := some (topicAt topics topic_index),
         session_type := "focused_study" }]
    else []
  let remaining1 := if 2 ≤ remaining then remaining - 2 else remaining
  let afternoon : List Session :=
    if 2 ≤ remaining1 then
      [{ time := "14:00", activity := "Study " ++ topicAt topics (topic_index + 1),
         duration := 120, topic := some (topicAt topics (topic_index + 1)),
         session_type := "focused_study" }]
    else []
  let topic_index1 := if 2 ≤ remaining1 then topic_index + 1 else topic_index
  let remaining2 := if 2 ≤ remaining1 then remaining1 - 2 else remaining1
  let evening : List Session :=
    if 1 ≤ remaining2 then
      [{ time := "19:00", activity := "Review and practice problems",
         duration := 60, topic := some "Mixed Review", session_type := "review" }]
    else []
  (morning ++ afternoon ++ evening, topic_index1)

/-- The `for day in range(days_available)` loop of _create_study_schedule:
`schedule[day_name] = daily_sessions` keyed by weekday name.  The first
argument is the number of days still to produce. -/
def buildDays (topics : List String) (daily_hours start_weekday : Nat) :
    Nat → Nat → Nat → Sched → Sched
  | 0, _, _, sched => sched
  | n + 1, day, topic_index, sched =>
    let dn := dayName (start_weekday + day)
    let md := makeDay topics daily_hours topic_index
    buildDays topics daily_hours start_weekday n (day + 1) md.2 (dictSet sched dn md.1)

/-- days_available = max(1, min((deadline - start_date).days or 7, 14)). -/
def daysAvailable (deadline_days : Option Int) : Nat :=
  let d : Int := match deadline_days with | some d => d | none => 7
  (max 1 (min d 14)).toNat

/-- PlannerAgent._create_study_schedule, parametrised by the weekday index of
start_date and the signed day difference (deadline - start_date).days. -/
def create_study_schedule (topics : List String) (daily_hours start_weekday : Nat)
    (deadline_days : Option Int) : Sched :=
  buildDays topics daily_hours start_weekday (daysAvailable deadline_days) 0 0 []

/-- The break appended by PlannerAgent._optimize_schedule ('15 minutes'). -/
def optBreak (s : Session) : Session :=
  { time := add_minutes_to_time s.time 120, activity := "Break", duration := 15,
    topic := some "Rest", session_type := "break" }

/-- One day of PlannerAgent._optimize_schedule: a break is appended after
every focused_study session, with no last-session guard. -/
def optimizeDay : List Session → List Session
  | [] => []
  | s :: rest =>
    if s.session_type == "focused_study" then s :: optBreak s :: optimizeDay rest
    else s :: optimizeDay rest

/-- PlannerAgent._optimize_schedule. -/
def optimize_schedule (plan : Sched) : Sched :=
  plan.map (fun p => (p.1, optimizeDay p.2))

/-- The plan-producing pipeline actually run by generate_study_plan:
_create_study_schedule followed by _optimize_schedule. -/
def fullPipeline (topics : List String) (daily_hours start_weekday : Nat)
    (deadline_days : Option Int) : Sched :=
  optimize_schedule (create_study_schedule topics daily_hours start_weekday deadline_days)

/-- The structured study_info produced by _parse_study_request, with dates
abstracted to the weekday index of start_date and the signed day span to the
deadline. -/
structure StudyInfo where
  topics : List String
  daily_hours : Nat
  start_weekday : Nat
  deadline_days : Option Int
  sync_calendar : Bool
deriving DecidableEq, Repr

/-- PlannerAgent._generate_plan_summary.  topics_covered is list(set(...)) in
the source; it is embedded as first-occurrence deduplication. -/
structure PlanSummary where
  total_days : Nat
  total_sessions : Nat
  study_sessions : Nat
  topics_covered : List String
  estimated_hours : Nat
deriving DecidableEq, Repr

def insertNew (acc : List String) (t : String) : List String :=
  if acc.any (fun x => x == t) then acc else acc ++ [t]

def generate_plan_summary (plan : Sched) : PlanSummary :=
  let total_sessions := (plan.map (fun p => p.2.length)).sum
  let study_sessions := (plan.map (fun p =>
    (p.2.filter (fun s =>
      s.session_type == "focused_study" || s.session_type == "review")).length)).sum
  let topics_covered := plan.foldl (fun acc p =>
    p.2.foldl (fun a s =>
      match s.topic with
      | some t => if t == "Rest" then a else insertNew a t
      | none => a) acc) []
  { total_days := plan.length, total_sessions := total_sessions,
    study_sessions := study_sessions, topics_covered := topics_covered,
    estimated_hours := study_sessions * 2 }

/-- The structured result dict of generate_study_plan. -/
structure PlanResult where
  success : Bool
  message : String
  plan : Option Sched
  summary : Option PlanSummary
deriving DecidableEq, Repr

/-- PlannerAgent.generate_study_plan from the structured study_info onward:
the empty-topics guard returns the failure result; otherwise the pipeline runs
and the success result carries the plan and summary.  Calendar sync and
persistence are fire-and-forget calls whose exceptions the source swallows and
which do not touch the plan; the outer try/except means no exception escapes
to the caller. -/
def generate_study_plan (info : StudyInfo) : PlanResult :=
  if info.topics = [] then
    { success := false,
      message := "Could not identify study topics. Please specify what you need to study.",
      plan := none, summary := none }
  else
    let optimized := fullPipeline info.topics info.daily_hours info.start_weekday
      info.deadline_days
    { success := true,
      message := "Generated " ++ Nat.repr optimized.length ++ " day study plan",
      plan := some optimized,
      summary := some (generate_plan_summary optimized) }

/-- Spec-side description: the first day (in the sorted day order) whose
session list mentions the topic. -/
def firstDayWith (schedule : Sched) : List String → Option String → Option String
  | [], _ => none
  | d :: ds, t =>
    if (listGet schedule d).any (fun s => s.topic == t) then some d
    else firstDayWith schedule ds t

/-- A session is a break. -/
def isBreak (s : Session) : Bool := s.session_type == "break"

/-- No break session immediately follows another break session. -/
def noAdjacentBreaks : List Session → Bool
  | a :: b :: rest => (!(isBreak a && isBreak b)) && noAdjacentBreaks (b :: rest)
  | _ => true

/-- The last session, if any, is not a break. -/
def lastNotBreak (ss : List Session) : Bool :=
  match ss.getLast? with
  | some s => !isBreak s
  | none => true

/-- Total minutes of all sessions in a day. -/
def sumDurations (ss : List Session) : Nat := (ss.map (fun s => s.duration)).sum

/-- Total minutes of the non-break (study and review) sessions in a day. -/
def studyMinutes (ss : List Session) : Nat :=
  ((ss.filter (fun s => !isBreak s)).map (fun s => s.duration)).sum

/-- Spec-side classification for balance_cognitive_load. -/
def isHard (topic_difficulty : List (String × ℚ)) (s : Session) : Bool :=
  decide ((7 : ℚ) / 10 < sessionDifficulty topic_difficulty s)

/-- Topic `t` owns at least one allocated slot of at least one hour somewhere
in the topic-hours schedule. -/
def hasSlot (sched : TSched) (t : String) : Prop :=
  ∃ p ∈ sched, ∃ e ∈ p.2, e.1 = t ∧ 1 ≤ e.2

/-- Every day label of the topic-hours schedule is "Day i" for some
1 ≤ i ≤ available_days. -/
def keysOk (ad : Nat) (sched : TSched) : Prop :=
  ∀ p ∈ sched, ∃ i, 1 ≤ i ∧ i ≤ ad ∧ p.1 = dayKey i

/-- Left-biased choice on options (Python `x if x is not None else y`). -/
def orO (a b : Option String) : Option String :=
  match a with
  | some x => some x
  | none => b

/-- What apply_spaced_repetition may append to day `d`: a Review session whose
topic first appears (in the sorted day order `days`) on a day `fd` such that
`d` sits exactly 1, 3 or 7 places after `fd`, within the schedule length and
strictly after `fd`. -/
def ReviewOK (schedule : Sched) (days : List String) (d : String) (r : Session) : Prop :=
  r.session_type = "review" ∧
  ∃ fd, firstDayWith schedule days r.topic = some fd ∧
    ∃ k, (k = 1 ∨ k = 3 ∨ k = 7) ∧ days.indexOf fd + k < days.length ∧
      days.indexOf d = days.indexOf fd + k ∧ days.indexOf fd < days.indexOf d

/-- `enh` extends `schedule` by appending only ReviewOK sessions to each day. -/
def Extends (schedule : Sched) (days : List String) (enh : Sched) : Prop :=
  ∀ d, ∃ extra, listGet enh d = listGet schedule d ++ extra ∧
    ∀ r ∈ extra, ReviewOK schedule days d r

theorem splitByDifficulty_go (td : List (String × ℚ)) (ss : List Session) :
    ∀ a b : List Session,
      ss.foldl (fun acc s =>
        if (7 : ℚ) / 10 < sessionDifficulty td s
        then (acc.1 ++ [s], acc.2)
        else (acc.1, acc.2 ++ [s])) (a, b) =
      (a ++ ss.filter (isHard td), b ++ ss.filter (fun s => !isHard td s)) := by
  induction ss with
  | nil => simp
  | cons s ss ih =>
    intro a b
    by_cases h : (7 : ℚ) / 10 < sessionDifficulty td s
    · simp only [List.foldl_cons, if_pos h, ih]
      simp [List.filter_cons, isHard, h]
    · simp only [List.foldl_cons, if_neg h, ih]
      simp [List.filter_cons, isHard, h]

theorem splitByDifficulty_eq_filter (td : List (String × ℚ)) (ss : List Session) :
    splitByDifficulty td ss =
      (ss.filter (isHard td), ss.filter (fun s => !isHard td s)) := by
  simpa using splitByDifficulty_go td ss [] []

theorem interleave_nil_right (hs : List Session) :
    interleaveSessions hs [] = hs := by
  induction hs with
  | nil => simp [interleaveSessions]
  | cons h t ih => simp [interleaveSessions, ih]

theorem interleave_nil_left (es : List Session) :
    interleaveSessions [] es = es := by
  induction es with
  | nil => simp [interleaveSessions]
  | cons h t ih => simp [interleaveSessions, ih]

/-- C5: for every difficulty map and schedule, balance_cognitive_load
partitions each day's sessions into hard (difficulty > 0.7) and easy
(difficulty ≤ 0.7, missing difficulty defaulting to 0.5), preserves each
partition's original relative order (the partitions are exactly the order
preserving filters), and returns the round-robin merge starting with hard,
where any leftover after one partition empties is appended in its original
order (the two trailing conjuncts). -/
theorem claim_C5 (td : List (String × ℚ)) (schedule : Sched) :
    balance_cognitive_load schedule td =
      schedule.map (fun p =>
        (p.1, interleaveSessions (p.2.filter (isHard td))
          (p.2.filter (fun s => !isHard td s)))) ∧
    (∀ hs : List Session, interleaveSessions hs [] = hs) ∧
    (∀ es : List Session, interleaveSessions [] es = es) := by
  refine ⟨?_, interleave_nil_right, interleave_nil_left⟩
  unfold balance_cognitive_load
  apply List.map_congr_left
  intro p _
  rw [splitByDifficulty_eq_filter]

/-- C6: generate_study_plan always returns a structured result (it is a total
function of the structured request); on an empty topic list it fails with
success = false, a non-empty reason and no plan, and on a non-empty topic
list it succeeds and carries the pipeline's plan. -/
theorem claim_C6 (info : StudyInfo) :
    (info.topics = [] →
      (generate_study_plan info).success = false ∧
      (generate_study_plan info).plan = none ∧
      (generate_study_plan info).message ≠ "") ∧
    (info.topics ≠ [] →
      (generate_study_plan info).success = true ∧
      (generate_study_plan info).plan =
        some (fullPipeline info.topics info.daily_hours info.start_weekday
          info.deadline_days)) := by
  constructor
  · intro h
    simp [generate_study_plan, h]
  · intro h
    simp [generate_study_plan, h]

theorem claim_C6_witness :
    (generate_study_plan
        { topics := [], daily_hours := 3, start_weekday := 0,
          deadline_days := none, sync_calendar := true }).success = false ∧
    (generate_study_plan
        { topics := [], daily_hours := 3, start_weekday := 0,
          deadline_days := none, sync_calendar := true }).plan = none ∧
    (generate_study_plan
        { topics := [], daily_hours := 3, start_weekday := 0,
          deadline_days := none, sync_calendar := true }).message ≠ "" :=
  (claim_C6 _).1 rfl

/-- C7: the build is deterministic and idempotent — two runs of the pipeline
on requests that agree on topics, daily_hours, start date and deadline yield
identical results (in particular the sync_calendar flag is irrelevant to the
produced Plan). -/
theorem claim_C7 (i1 i2 : StudyInfo) (ht : i1.topics = i2.topics)
    (hh : i1.daily_hours = i2.daily_hours)
    (hs : i1.start_weekday = i2.start_weekday)
    (hd : i1.deadline_days = i2.deadline_days) :
    generate_study_plan i1 = generate_study_plan i2 ∧
    fullPipeline i1.topics i1.daily_hours i1.start_weekday i1.deadline_days =
      fullPipeline i2.topics i2.daily_hours i2.start_weekday i2.deadline_days := by
  cases i1 with
  | mk t1 h1 s1 d1 c1 =>
    cases i2 with
    | mk t2 h2 s2 d2 c2 =>
      simp only at ht hh hs hd
      subst ht hh hs hd
      exact ⟨rfl, rfl⟩

theorem claim_C7_witness :
    generate_study_plan
        { topics := ["Math"], daily_hours := 3, start_weekday := 2,
          deadline_days := some 5, sync_calendar := true } =
      generate_study_plan
        { topics := ["Math"], daily_hours := 3, start_weekday := 2,
          deadline_days := some 5, sync_calendar := false } :=
  (claim_C7 _ _ rfl rfl rfl rfl).1

/-- C9: the session-length advisor returns a difficulty-adjusted base of
45 minutes for difficulty > 0.7, 90 for difficulty < 0.3 and 60 otherwise;
the base is multiplied by 1.1 (int-truncated) for a parsed hour in [6,12),
left unchanged in [12,18), multiplied by 0.9 in [18,22); and when the time
string cannot be parsed the difficulty-adjusted base is returned unmodified. -/
theorem claim_C9 (difficulty : ℚ) (tod : String) :
    ∃ b : Nat,
      ((7 : ℚ) / 10 < difficulty → b = 45) ∧
      (difficulty < (3 : ℚ) / 10 → b = 90) ∧
      (¬((7 : ℚ) / 10 < difficulty) → ¬(difficulty < (3 : ℚ) / 10) → b = 60) ∧
      (hourOf tod = none → calculate_optimal_session_length difficulty tod = b) ∧
      (∀ h : Int, hourOf tod = some h →
        ((6 ≤ h ∧ h < 12) →
          calculate_optimal_session_length difficulty tod = b * 11 / 10) ∧
        ((12 ≤ h ∧ h < 18) →
          calculate_optimal_session_length difficulty tod = b) ∧
        ((18 ≤ h ∧ h < 22) →
          calculate_optimal_session_length difficulty tod = b * 9 / 10)) := by
  refine ⟨if (7 : ℚ) / 10 < difficulty then 45
    else if difficulty < (3 : ℚ) / 10 then 90 else 60, ?_, ?_, ?_, ?_, ?_⟩
  · intro h; simp [h]
  · intro h
    have h7 : ¬((7 : ℚ) / 10 < difficulty) := by
      intro hc; linarith
    simp [h, h7]
  · intro h1 h2; simp [h1, h2]
  · intro h
    unfold calculate_optimal_session_length
    rw [h]
  · intro h hh
    unfold calculate_optimal_session_length
    rw [hh]
    dsimp only
    refine ⟨?_, ?_, ?_⟩
    · intro hr
      rw [if_pos hr]
    · intro hr
      have : ¬(6 ≤ h ∧ h < 12) := by omega
      rw [if_neg this, if_pos hr]
    · intro hr
      have n1 : ¬(6 ≤ h ∧ h < 12) := by omega
      have n2 : ¬(12 ≤ h ∧ h < 18) := by omega
      rw [if_neg n1, if_neg n2, if_pos hr]

theorem claim_C9_witness :
    calculate_optimal_session_length ((1 : ℚ) / 2) "09:00" = 66 := by
  obtain ⟨b, _, _, h60, _, hsome⟩ := claim_C9 ((1 : ℚ) / 2) "09:00"
  have hb : b = 60 := h60 (by norm_num) (by norm_num)
  have hhour : hourOf "09:00" = some 9 := by decide
  have := (hsome 9 hhour).1 (by omega)
  rw [this, hb]

theorem hasSlot_ensureKey {sched : TSched} {key t : String}
    (h : hasSlot sched t) : hasSlot (ensureKey sched key) t := by
  obtain ⟨p, hp, he⟩ := h
  unfold ensureKey
  split
  · exact ⟨p, hp, he⟩
  · exact ⟨p, List.mem_append_left _ hp, he⟩

theorem hasSlot_dictAppend {sched : TSched} {k : String} {v : String × Nat} {t : String}
    (h : hasSlot sched t) : hasSlot (dictAppend sched k v) t := by
  induction sched with
  | nil => simp [hasSlot] at h
  | cons q rest ih =>
    obtain ⟨p, hp, e, he, het⟩ := h
    obtain ⟨k0, vs⟩ := q
    unfold dictAppend
    split
    · rcases List.mem_cons.mp hp with hpq | hpr
      · refine ⟨(k0, vs ++ [v]), List.mem_cons_self _ _, e, ?_, het⟩
        rw [hpq] at he
        exact List.mem_append_left _ he
      · exact ⟨p, List.mem_cons_of_mem _ hpr, e, he, het⟩
    · rcases List.mem_cons.mp hp with hpq | hpr
      · refine ⟨(k0, vs), List.mem_cons_self _ _, e, ?_, het⟩
        rw [hpq] at he
        exact he
      · obtain ⟨p', hp', e', he', het'⟩ := ih ⟨p, hpr, e, he, het⟩
        exact ⟨p', List.mem_cons_of_mem _ hp', e', he', het'⟩

theorem hasSlot_dictAppend_new (sched : TSched) (k t : String) (h : Nat)
    (hh : 1 ≤ h) : hasSlot (dictAppend sched k (t, h)) t := by
  induction sched with
  | nil => exact ⟨(k, [(t, h)]), List.mem_singleton.mpr rfl, (t, h), List.mem_singleton.mpr rfl, rfl, hh⟩
  | cons q rest ih =>
    obtain ⟨k0, vs⟩ := q
    unfold dictAppend
    split
    · exact ⟨(k0, vs ++ [(t, h)]), List.mem_cons_self _ _, (t, h),
        List.mem_append_right _ (List.mem_singleton.mpr rfl), rfl, hh⟩
    · obtain ⟨p', hp', e', he', het'⟩ := ih
      exact ⟨p', List.mem_cons_of_mem _ hp', e', he', het'⟩

theorem hasSlot_allocLoop (ad dh : Nat) (tp : String) :
    ∀ th cd hrt (sched : TSched) (t : String),
      hasSlot sched t → hasSlot (allocLoop ad dh tp th cd hrt sched).1 t := by
  intro th cd hrt sched
  induction th, cd, hrt, sched using allocLoop.induct ad dh tp with
  | case1 th cd hrt sched h1 dk sched1 h2 alloc sched2 h3 ih =>
    intro t ht
    rw [allocLoop.eq_def, if_pos h1]
    simp only [dif_pos h2, if_pos h3]
    exact ih t (hasSlot_dictAppend (hasSlot_ensureKey ht))
  | case2 th cd hrt sched h1 h2 alloc h3 h4 =>
    intro t ht
    rw [allocLoop.eq_def, if_pos h1]
    simp only [dif_pos h2, if_neg h3, if_pos h4]
    exact hasSlot_dictAppend (hasSlot_ensureKey ht)
  | case3 th cd hrt sched h1 dk sched1 h2 alloc sched2 h3 h4 ih =>
    intro t ht
    rw [allocLoop.eq_def, if_pos h1]
    simp only [dif_pos h2, if_neg h3, if_neg h4]
    exact ih t (hasSlot_dictAppend (hasSlot_ensureKey ht))
  | case4 th cd hrt sched h1 h2 h3 =>
    intro t ht
    rw [allocLoop.eq_def, if_pos h1]
    simp only [dif_neg h2, if_pos h3]
    exact hasSlot_ensureKey ht
  | case5 th cd hrt sched h1 dk sched1 h2 h3 ih =>
    intro t ht
    rw [allocLoop.eq_def, if_pos h1]
    simp only [dif_neg h2, if_neg h3]
    exact ih t (hasSlot_ensureKey ht)
  | case6 th cd hrt sched h1 =>
    intro t ht
    rw [allocLoop.eq_def, if_neg h1]
    exact ht

theorem hasSlot_allocLoop_first (ad dh : Nat) (tp : String)
    (th cd hrt : Nat) (sched : TSched) (hth : 0 < th) (hhrt : 0 < hrt) :
    hasSlot (allocLoop ad dh tp th cd hrt sched).1 tp := by
  have halloc : 1 ≤ min th hrt := by omega
  have hnew : hasSlot (dictAppend (ensureKey sched (dayKey (cd + 1))) (dayKey (cd + 1))
      (tp, min th hrt)) tp := hasSlot_dictAppend_new _ _ _ _ halloc
  rw [allocLoop.eq_def, if_pos hth]
  simp only [dif_pos hhrt]
  by_cases h3 : 0 < hrt - min th hrt
  · rw [if_pos h3]
    exact hasSlot_allocLoop ad dh tp _ _ _ _ tp hnew
  · rw [if_neg h3]
    by_cases h4 : ad ≤ cd + 1
    · rw [if_pos h4]
      exact hnew
    · rw [if_neg h4]
      exact hasSlot_allocLoop ad dh tp _ _ _ _ tp hnew

theorem hasSlot_distLoop (ad dh hpt : Nat) :
    ∀ (topics : List String) (cd hrt : Nat) (sched : TSched) (t : String),
      hasSlot sched t → hasSlot (distLoop ad dh hpt topics cd hrt sched) t := by
  intro topics
  induction topics with
  | nil => intro cd hrt sched t ht; exact ht
  | cons tp rest ih =>
    intro cd hrt sched t ht
    simp only [distLoop]
    split
    · exact hasSlot_allocLoop ad dh tp hpt cd hrt sched t ht
    · exact ih _ _ _ t (hasSlot_allocLoop ad dh tp hpt cd hrt sched t ht)

theorem keysOk_ensureKey {ad : Nat} {sched : TSched} {key : String}
    (h : keysOk ad sched) (hk : ∃ i, 1 ≤ i ∧ i ≤ ad ∧ key = dayKey i) :
    keysOk ad (ensureKey sched key) := by
  unfold ensureKey
  split
  · exact h
  · intro p hp
    rcases List.mem_append.mp hp with hps | hpn
    · exact h p hps
    · obtain rfl : p = (key, []) := List.mem_singleton.mp hpn
      exact hk

theorem keysOk_dictAppend {ad : Nat} {sched : TSched} {k : String} {v : String × Nat}
    (h : keysOk ad sched) (hk : ∃ i, 1 ≤ i ∧ i ≤ ad ∧ k = dayKey i) :
    keysOk ad (dictAppend sched k v) := by
  induction sched with
  | nil =>
    intro p hp
    obtain rfl : p = (k, [v]) := List.mem_singleton.mp hp
    exact hk
  | cons q rest ih =>
    obtain ⟨k0, vs⟩ := q
    unfold dictAppend
    split
    · intro p hp
      rcases List.mem_cons.mp hp with rfl | hpr
      · exact h (k0, vs) (List.mem_cons_self _ _)
      · exact h p (List.mem_cons_of_mem _ hpr)
    · intro p hp
      rcases List.mem_cons.mp hp with rfl | hpr
      · exact h (k0, vs) (List.mem_cons_self _ _)
      · exact ih (fun q hq => h q (List.mem_cons_of_mem _ hq)) p hpr

theorem keysOk_allocLoop (ad dh : Nat) (tp : String) :
    ∀ th cd hrt (sched : TSched),
      cd < ad → keysOk ad sched → keysOk ad (allocLoop ad dh tp th cd hrt sched).1 := by
  intro th cd hrt sched
  induction th, cd, hrt, sched using allocLoop.induct ad dh tp with
  | case1 th cd hrt sched h1 dk sched1 h2 alloc sched2 h3 ih =>
    intro hcd h
    rw [allocLoop.eq_def, if_pos h1]
    simp only [dif_pos h2, if_pos h3]
    exact ih hcd (keysOk_dictAppend (keysOk_ensureKey h ⟨cd + 1, by omega, by omega, rfl⟩)
      ⟨cd + 1, by omega, by omega, rfl⟩)
  | case2 th cd hrt sched h1 h2 alloc h3 h4 =>
    intro hcd h
    rw [allocLoop.eq_def, if_pos h1]
    simp only [dif_pos h2, if_neg h3, if_pos h4]
    exact keysOk_dictAppend (keysOk_ensureKey h ⟨cd + 1, by omega, by omega, rfl⟩)
      ⟨cd + 1, by omega, by omega, rfl⟩
  | case3 th cd hrt sched h1 dk sched1 h2 alloc sched2 h3 h4 ih =>
    intro hcd h
    rw [allocLoop.eq_def, if_pos h1]
    simp only [dif_pos h2, if_neg h3, if_neg h4]
    exact ih (by omega) (keysOk_dictAppend (keysOk_ensureKey h ⟨cd + 1, by omega, by omega, rfl⟩)
      ⟨cd + 1, by omega, by omega, rfl⟩)
  | case4 th cd hrt sched h1 h2 h3 =>
    intro hcd h
    rw [allocLoop.eq_def, if_pos h1]
    simp only [dif_neg h2, if_pos h3]
    exact keysOk_ensureKey h ⟨cd + 1, by omega, by omega, rfl⟩
  | case5 th cd hrt sched h1 dk sched1 h2 h3 ih =>
    intro hcd h
    rw [allocLoop.eq_def, if_pos h1]
    simp only [dif_neg h2, if_neg h3]
    exact ih (by omega) (keysOk_ensureKey h ⟨cd + 1, by omega, by omega, rfl⟩)
  | case6 th cd hrt sched h1 =>
    intro hcd h
    rw [allocLoop.eq_def, if_neg h1]
    exact h

theorem keysOk_distLoop (ad dh hpt : Nat) :
    ∀ (topics : List String) (cd hrt : Nat) (sched : TSched),
      cd < ad → keysOk ad sched → keysOk ad (distLoop ad dh hpt topics cd hrt sched) := by
  intro topics
  induction topics with
  | nil => intro cd hrt sched hcd h; exact h
  | cons tp rest ih =>
    intro cd hrt sched hcd h
    simp only [distLoop]
    split
    · exact keysOk_allocLoop ad dh tp hpt cd hrt sched hcd h
    · next hguard =>
      exact ih _ _ _ (by omega) (keysOk_allocLoop ad dh tp hpt cd hrt sched hcd h)

/-- C1 counterexample: with topics ["A", "B"], one available day and one
daily hour, topic "B" receives no slot at all — the allocator drops later
topics instead of extending into subsequent days. -/
theorem claim_C1_counterexample :
    ¬ ∃ p ∈ optimize_topic_distribution ["A", "B"] 1 1,
      ∃ e ∈ p.2, e.1 = "B" ∧ 1 ≤ e.2 := by
  have hd1 : dayKey 1 = "Day 1" := by decide
  simp [optimize_topic_distribution, distLoop, allocLoop, ensureKey, dictAppend, hd1]

/-- C1 amended: for a non-empty topic list, available_days ≥ 1 and
daily_hours ≥ 1, the first topic always receives at least one slot of at
least one hour, and the allocation never extends beyond available_days
(every produced day label is "Day i" with 1 ≤ i ≤ available_days); topics
that would overflow the capacity are dropped, and no exception is raised
(the allocator is a total function). -/
theorem claim_C1_amended (t : String) (ts : List String) (ad dh : Nat)
    (had : 1 ≤ ad) (hdh : 1 ≤ dh) :
    (∃ p ∈ optimize_topic_distribution (t :: ts) ad dh,
      ∃ e ∈ p.2, e.1 = t ∧ 1 ≤ e.2) ∧
    (∀ p ∈ optimize_topic_distribution (t :: ts) ad dh,
      ∃ i, 1 ≤ i ∧ i ≤ ad ∧ p.1 = dayKey i) := by
  unfold optimize_topic_distribution
  constructor
  · show hasSlot _ t
    simp only [distLoop]
    split
    · exact hasSlot_allocLoop_first ad dh t _ 0 dh [] (by omega) hdh
    · exact hasSlot_distLoop ad dh _ ts _ _ _ t
        (hasSlot_allocLoop_first ad dh t _ 0 dh [] (by omega) hdh)
  · show keysOk ad _
    exact keysOk_distLoop ad dh _ (t :: ts) 0 dh [] (by omega) (by intro p hp; simp at hp)

theorem claim_C1_witness :
    (∃ p ∈ optimize_topic_distribution ["Math", "Phys"] 2 3,
      ∃ e ∈ p.2, e.1 = "Math" ∧ 1 ≤ e.2) ∧
    (∀ p ∈ optimize_topic_distribution ["Math", "Phys"] 2 3,
      ∃ i, 1 ≤ i ∧ i ≤ 2 ∧ p.1 = dayKey i) :=
  claim_C1_amended "Math" ["Phys"] 2 3 (by norm_num) (by norm_num)

theorem dictSet_mem {α : Type} (sched : List (String × α)) (k : String) (v : α)
    (p : String × α) (hp : p ∈ dictSet sched k v) : p ∈ sched ∨ p = (k, v) := by
  induction sched with
  | nil =>
    right
    simpa [dictSet] using hp
  | cons q rest ih =>
    obtain ⟨k0, w⟩ := q
    unfold dictSet at hp
    split at hp
    · next heq =>
      rcases List.mem_cons.mp hp with rfl | hpr
      · right; rw [heq]
      · left; exact List.mem_cons_of_mem _ hpr
    · rcases List.mem_cons.mp hp with rfl | hpr
      · left; exact List.mem_cons_self _ _
      · rcases ih hpr with h | h
        · left; exact List.mem_cons_of_mem _ h
        · right; exact h

theorem buildDays_mem (topics : List String) (dh sw : Nat) :
    ∀ (n day ti : Nat) (sched : Sched) (p : String × List Session),
      p ∈ buildDays topics dh sw n day ti sched →
      p ∈ sched ∨ ∃ ti', p.2 = (makeDay topics dh ti').1 := by
  intro n
  induction n with
  | zero => intro day ti sched p hp; exact Or.inl hp
  | succ n ih =>
    intro day ti sched p hp
    simp only [buildDays] at hp
    rcases ih _ _ _ p hp with hmem | hex
    · rcases dictSet_mem _ _ _ _ hmem with h | h
      · exact Or.inl h
      · exact Or.inr ⟨ti, by rw [h]⟩
    · exact Or.inr hex

theorem create_mem (topics : List String) (dh sw : Nat) (dl : Option Int)
    (p : String × List Session) (hp : p ∈ create_study_schedule topics dh sw dl) :
    ∃ ti, p.2 = (makeDay topics dh ti).1 := by
  rcases buildDays_mem topics dh sw _ _ _ _ p hp with h | h
  · simp at h
  · exact h

theorem makeDay_studyMinutes (topics : List String) (dh ti : Nat) :
    studyMinutes (makeDay topics dh ti).1 ≤ dh * 60 := by
  unfold makeDay
  dsimp only
  split_ifs with h1 h2 h3 h4 h5 h6 <;>
    simp_all [studyMinutes, isBreak, List.filter] <;> omega

theorem mem_if_list {c : Prop} [Decidable c] {s : Session} {l : List Session}
    (h : s ∈ if c then l else []) : s ∈ l := by
  split at h
  · exact h
  · simp at h

theorem makeDay_not_break (topics : List String) (dh ti : Nat) :
    ∀ s ∈ (makeDay topics dh ti).1, isBreak s = false := by
  intro s hs
  unfold makeDay at hs
  dsimp only at hs
  simp only [List.mem_append] at hs
  rcases hs with (hs | hs) | hs <;>
    have hm := mem_if_list hs <;>
    simp only [List.mem_singleton] at hm <;>
    subst hm <;> rfl

theorem studyMinutes_cons (s : Session) (l : List Session) :
    studyMinutes (s :: l) = (if isBreak s then 0 else s.duration) + studyMinutes l := by
  unfold studyMinutes
  by_cases h : isBreak s <;> simp [List.filter_cons, h]

theorem optimizeDay_studyMinutes (ss : List Session) :
    studyMinutes (optimizeDay ss) = studyMinutes ss := by
  induction ss using optimizeDay.induct with
  | case1 => rfl
  | case2 s rest hc ih =>
    have hval : s.session_type = "focused_study" := by simpa using hc
    have hs : isBreak s = false := by
      show (s.session_type == "break") = false
      rw [hval]
      rfl
    have hb : isBreak (optBreak s) = true := rfl
    unfold optimizeDay
    rw [if_pos hc]
    rw [studyMinutes_cons, studyMinutes_cons, ih, studyMinutes_cons, hs, hb]
    simp
  | case3 s rest hc ih =>
    unfold optimizeDay
    rw [if_neg hc]
    rw [studyMinutes_cons, studyMinutes_cons, ih]

/-- C2 counterexample: for topics ["Calculus", "Physics"], daily_hours = 4
and a 2-day span, the pipeline's first day sums to 270 minutes of sessions,
exceeding daily_hours * 60 = 240 — the inserted breaks push a Day past the
cap. -/
theorem claim_C2_counterexample :
    ∃ p ∈ fullPipeline ["Calculus", "Physics"] 4 0 (some 2),
      4 * 60 < sumDurations p.2 := by decide

/-- C2 amended: in every Day of a Plan produced by the pipeline, the sum of
the durations of the non-Break (FocusedStudy and Review) sessions is at most
daily_hours * 60; the inserted 15-minute Breaks can push the all-session
total past that bound. -/
theorem claim_C2_amended (topics : List String) (dh sw : Nat) (dl : Option Int) :
    ∀ p ∈ fullPipeline topics dh sw dl, studyMinutes p.2 ≤ dh * 60 := by
  intro p hp
  unfold fullPipeline optimize_schedule at hp
  obtain ⟨q, hq, rfl⟩ := List.mem_map.mp hp
  dsimp only
  rw [optimizeDay_studyMinutes]
  obtain ⟨ti, hti⟩ := create_mem topics dh sw dl q hq
  rw [hti]
  exact makeDay_studyMinutes topics dh ti

theorem claim_C2_amended_witness :
    ("Monday", listGet (fullPipeline ["Calculus", "Physics"] 4 0 (some 2)) "Monday") ∈
      fullPipeline ["Calculus", "Physics"] 4 0 (some 2) ∧
    studyMinutes (listGet (fullPipeline ["Calculus", "Physics"] 4 0 (some 2)) "Monday") ≤
      4 * 60 :=
  ⟨by decide, claim_C2_amended ["Calculus", "Physics"] 4 0 (some 2) _ (by decide)⟩

theorem noAdj_cons (a : Session) (l : List Session) :
    noAdjacentBreaks (a :: l) =
      ((match l.head? with
        | some b => !(isBreak a && isBreak b)
        | none => true) && noAdjacentBreaks l) := by
  cases l <;> simp [noAdjacentBreaks]

theorem optimizeDay_head (ss : List Session) :
    (optimizeDay ss).head? = ss.head? := by
  cases ss with
  | nil => rfl
  | cons s rest =>
    unfold optimizeDay
    split <;> rfl

theorem optimizeDay_noAdjacent (ss : List Session)
    (h : ∀ s ∈ ss, isBreak s = false) :
    noAdjacentBreaks (optimizeDay ss) = true := by
  induction ss using optimizeDay.induct with
  | case1 => rfl
  | case2 s rest hc ih =>
    have hs : isBreak s = false := h s (List.mem_cons_self _ _)
    have hb : isBreak (optBreak s) = true := rfl
    unfold optimizeDay
    rw [if_pos hc]
    rw [noAdj_cons, noAdj_cons, optimizeDay_head]
    have hrest : noAdjacentBreaks (optimizeDay rest) = true :=
      ih (fun s hs' => h s (List.mem_cons_of_mem _ hs'))
    cases hr : rest.head? with
    | none => simp [hs, hrest]
    | some b =>
      have hbm : isBreak b = false :=
        h b (List.mem_cons_of_mem _ (List.mem_of_mem_head? hr))
      simp [hs, hbm, hrest]
  | case3 s rest hc ih =>
    have hs : isBreak s = false := h s (List.mem_cons_self _ _)
    unfold optimizeDay
    rw [if_neg hc]
    rw [noAdj_cons, optimizeDay_head]
    have hrest : noAdjacentBreaks (optimizeDay rest) = true :=
      ih (fun s hs' => h s (List.mem_cons_of_mem _ hs'))
    cases hr : rest.head? with
    | none => simp [hs, hrest]
    | some b =>
      have hbm : isBreak b = false :=
        h b (List.mem_cons_of_mem _ (List.mem_of_mem_head? hr))
      simp [hs, hbm, hrest]

theorem addBreaksDay_head (i : Nat) (ss : List Session) :
    (addBreaksDay i ss).head? = ss.head? := by
  rcases ss with _ | ⟨s, _ | ⟨s2, rest⟩⟩
  · rfl
  · rfl
  · unfold addBreaksDay
    split <;> rfl

theorem addBreaksDay_ok (i : Nat) :
    ∀ ss : List Session, (∀ s ∈ ss, isBreak s = false) →
      noAdjacentBreaks (addBreaksDay i ss) = true ∧
      lastNotBreak (addBreaksDay i ss) = true := by
  intro ss
  induction ss using addBreaksDay.induct i with
  | case1 => intro _; exact ⟨rfl, rfl⟩
  | case2 s =>
    intro h
    have hs : isBreak s = false := h s (List.mem_cons_self _ _)
    exact ⟨rfl, by simp [addBreaksDay, lastNotBreak, hs]⟩
  | case3 s s2 rest hc ih =>
    intro h
    have hs : isBreak s = false := h s (List.mem_cons_self _ _)
    have hs2 : isBreak s2 = false :=
      h s2 (List.mem_cons_of_mem _ (List.mem_cons_self _ _))
    have hrest := ih (fun x hx => h x (List.mem_cons_of_mem _ hx))
    obtain ⟨x, L, hxL⟩ : ∃ x L, addBreaksDay i (s2 :: rest) = x :: L := by
      cases hab : addBreaksDay i (s2 :: rest) with
      | nil =>
        have := addBreaksDay_head i (s2 :: rest)
        rw [hab] at this
        simp at this
      | cons x L => exact ⟨x, L, rfl⟩
    have hx2 : x = s2 := by
      have := addBreaksDay_head i (s2 :: rest)
      rw [hxL] at this
      simpa using this
    subst hx2
    rw [hxL] at hrest
    unfold addBreaksDay
    rw [if_pos hc]
    constructor
    · rw [noAdj_cons, noAdj_cons, hxL]
      have hb : isBreak (mkBreak i s) = true := rfl
      simp [hs, hb, hs2, hrest.1]
    · rw [hxL]
      simp only [lastNotBreak, List.getLast?_cons_cons]
      have := hrest.2
      simpa [lastNotBreak] using this
  | case4 s s2 rest hc ih =>
    intro h
    have hs : isBreak s = false := h s (List.mem_cons_self _ _)
    have hs2 : isBreak s2 = false :=
      h s2 (List.mem_cons_of_mem _ (List.mem_cons_self _ _))
    have hrest := ih (fun x hx => h x (List.mem_cons_of_mem _ hx))
    obtain ⟨x, L, hxL⟩ : ∃ x L, addBreaksDay i (s2 :: rest) = x :: L := by
      cases hab : addBreaksDay i (s2 :: rest) with
      | nil =>
        have := addBreaksDay_head i (s2 :: rest)
        rw [hab] at this
        simp at this
      | cons x L => exact ⟨x, L, rfl⟩
    have hx2 : x = s2 := by
      have := addBreaksDay_head i (s2 :: rest)
      rw [hxL] at this
      simpa using this
    subst hx2
    rw [hxL] at hrest
    unfold addBreaksDay
    rw [if_neg hc]
    constructor
    · rw [noAdj_cons, hxL]
      simp [hs, hs2, hrest.1]
    · rw [hxL]
      simp only [lastNotBreak, List.getLast?_cons_cons]
      have := hrest.2
      simpa [lastNotBreak] using this

/-- C3 counterexample: in the pipeline's output for
topics ["Calculus", "Physics"], daily_hours = 4 and a 2-day span, a Break is
the last session of a Day (a break is appended even after the final
focused_study session of the day). -/
theorem claim_C3_counterexample :
    ∃ p ∈ fullPipeline ["Calculus", "Physics"] 4 0 (some 2),
      lastNotBreak p.2 = false := by decide

/-- C3 amended: SchedulerUtils.add_breaks run on any break-free schedule
yields days with no Break as the last session and no Break immediately after
another Break; the pipeline actually used (_optimize_schedule) guarantees
only the second property — no Break ever immediately follows another Break in
any Day of a pipeline Plan, but a Break can be a Day's last session. -/
theorem claim_C3_amended :
    (∀ (interval : Nat) (sched : Sched),
      (∀ p ∈ sched, ∀ s ∈ p.2, isBreak s = false) →
      ∀ p ∈ add_breaks sched interval,
        noAdjacentBreaks p.2 = true ∧ lastNotBreak p.2 = true) ∧
    (∀ (topics : List String) (dh sw : Nat) (dl : Option Int),
      ∀ p ∈ fullPipeline topics dh sw dl, noAdjacentBreaks p.2 = true) := by
  constructor
  · intro interval sched hfree p hp
    unfold add_breaks at hp
    obtain ⟨q, hq, rfl⟩ := List.mem_map.mp hp
    exact addBreaksDay_ok interval q.2 (hfree q hq)
  · intro topics dh sw dl p hp
    unfold fullPipeline optimize_schedule at hp
    obtain ⟨q, hq, rfl⟩ := List.mem_map.mp hp
    obtain ⟨ti, hti⟩ := create_mem topics dh sw dl q hq
    dsimp only
    rw [hti]
    exact optimizeDay_noAdjacent _ (makeDay_not_break topics dh ti)

theorem claim_C3_amended_witness :
    noAdjacentBreaks (listGet (add_breaks
      [("D", [{ time := "09:00", activity := "a", duration := 60,
                topic := some "X", session_type := "focused_study" },
              { time := "10:00", activity := "b", duration := 60,
                topic := some "Y", session_type := "review" }])] 120) "D") = true ∧
    lastNotBreak (listGet (add_breaks
      [("D", [{ time := "09:00", activity := "a", duration := 60,
                topic := some "X", session_type := "focused_study" },
              { time := "10:00", activity := "b", duration := 60,
                topic := some "Y", session_type := "review" }])] 120) "D") = true :=
  claim_C3_amended.1 120
    [("D", [{ time := "09:00", activity := "a", duration := 60,
              topic := some "X", session_type := "focused_study" },
            { time := "10:00", activity := "b", duration := 60,
              topic := some "Y", session_type := "review" }])] (by decide)
    ("D", listGet (add_breaks
      [("D", [{ time := "09:00", activity := "a", duration := 60,
                topic := some "X", session_type := "focused_study" },
              { time := "10:00", activity := "b", duration := 60,
                topic := some "Y", session_type := "review" }])] 120) "D") (by decide)

/-- C8 counterexample: for topics ["Calculus", "Physics"], daily_hours = 4
and 2 available days starting on a Monday, the resulting plan's days do not
consist of the two claimed study sessions alone — each day also carries the
two inserted Break sessions. -/
theorem claim_C8_counterexample :
    ¬ ((fullPipeline ["Calculus", "Physics"] 4 0 (some 2)).map Prod.snd =
      [[{ time := "09:00", activity := "Study Calculus", duration := 120,
          topic := some "Calculus", session_type := "focused_study" },
        { time := "14:00", activity := "Study Physics", duration := 120,
          topic := some "Physics", session_type := "focused_study" }],
       [{ time := "09:00", activity := "Study Physics", duration := 120,
          topic := some "Physics", session_type := "focused_study" },
        { time := "14:00", activity := "Study Calculus", duration := 120,
          topic := some "Calculus", session_type := "focused_study" }]]) := by decide

/-- C8 amended: in the scenario topics = ["Calculus", "Physics"],
daily_hours = 4, 2 available days, the pre-break schedule is exactly
Day 1 = [Calculus@09:00 (120m), Physics@14:00 (120m)] and
Day 2 = [Physics@09:00 (120m), Calculus@14:00 (120m)] (the topic index
advances only after the afternoon slot is filled), and the final plan's
days carry exactly those study sessions in that order once the inserted
15-minute Breaks are disregarded. -/
theorem claim_C8_amended :
    (create_study_schedule ["Calculus", "Physics"] 4 0 (some 2)).map Prod.snd =
      [[{ time := "09:00", activity := "Study Calculus", duration := 120,
          topic := some "Calculus", session_type := "focused_study" },
        { time := "14:00", activity := "Study Physics", duration := 120,
          topic := some "Physics", session_type := "focused_study" }],
       [{ time := "09:00", activity := "Study Physics", duration := 120,
          topic := some "Physics", session_type := "focused_study" },
        { time := "14:00", activity := "Study Calculus", duration := 120,
          topic := some "Calculus", session_type := "focused_study" }]] ∧
    (fullPipeline ["Calculus", "Physics"] 4 0 (some 2)).map
        (fun p => p.2.filter (fun s => !isBreak s)) =
      [[{ time := "09:00", activity := "Study Calculus", duration := 120,
          topic := some "Calculus", session_type := "focused_study" },
        { time := "14:00", activity := "Study Physics", duration := 120,
          topic := some "Physics", session_type := "focused_study" }],
       [{ time := "09:00", activity := "Study Physics", duration := 120,
          topic := some "Physics", session_type := "focused_study" },
        { time := "14:00", activity := "Study Calculus", duration := 120,
          topic := some "Calculus", session_type := "focused_study" }]] := by
  constructor <;> decide

theorem dayName_mem (n : Nat) : dayName n ∈ weekNames := by
  unfold dayName
  generalize hm : n % 7 = m
  have h7 : m < 7 := hm ▸ Nat.mod_lt _ (by norm_num)
  interval_cases m <;> decide

theorem dictSet_map_fst {α : Type} (sched : List (String × α)) (k : String) (v : α) :
    (dictSet sched k v).map Prod.fst =
      if k ∈ sched.map Prod.fst then sched.map Prod.fst
      else sched.map Prod.fst ++ [k] := by
  induction sched with
  | nil => simp [dictSet]
  | cons q rest ih =>
    obtain ⟨k0, w⟩ := q
    unfold dictSet
    split
    · next heq =>
      simp [heq]
    · next hne =>
      have hkk : k ≠ k0 := fun h => hne h.symm
      by_cases hmem : k ∈ rest.map Prod.fst
      · simp [hmem, hkk, ih]
      · simp [hmem, hkk, ih]

theorem buildDays_keys (topics : List String) (dh sw : Nat) :
    ∀ (n day ti : Nat) (sched : Sched),
      (sched.map Prod.fst).Nodup → (∀ k ∈ sched.map Prod.fst, k ∈ weekNames) →
      ((buildDays topics dh sw n day ti sched).map Prod.fst).Nodup ∧
      (∀ k ∈ (buildDays topics dh sw n day ti sched).map Prod.fst, k ∈ weekNames) := by
  intro n
  induction n with
  | zero => intro day ti sched hn hsub; exact ⟨hn, hsub⟩
  | succ n ih =>
    intro day ti sched hn hsub
    simp only [buildDays]
    apply ih
    · rw [dictSet_map_fst]
      split
      · exact hn
      · next hnotmem =>
        simp [List.nodup_append, hn, hnotmem]
    · intro k hk
      rw [dictSet_map_fst] at hk
      split at hk
      · exact hsub k hk
      · rcases List.mem_append.mp hk with h | h
        · exact hsub k h
        · rw [List.mem_singleton.mp h]
          exact dayName_mem _

/-- C10: the plan returned by _create_study_schedule always has at most 7 day
entries, even though the internal day count is clamped to [1, 14]: day keys
are weekday names, so with more than 7 days, later days overwrite earlier
ones sharing the weekday name.  Concretely, with a 14-day span the clamp
keeps all 14 days but the plan has exactly 7 entries, and Monday's sessions
are those computed for day index 7 (topics "B" and "C"), not the day-0
sessions (topics "A" and "B") — day 0's sessions are silently lost. -/
theorem claim_C10 :
    (∀ (topics : List String) (dh sw : Nat) (dl : Option Int),
      (create_study_schedule topics dh sw dl).length ≤ 7) ∧
    daysAvailable (some 14) = 14 ∧
    (create_study_schedule ["A", "B", "C"] 4 0 (some 14)).length = 7 ∧
    listGet (create_study_schedule ["A", "B", "C"] 4 0 (some 14)) "Monday" =
      [{ time := "09:00", activity := "Study B", duration := 120,
         topic := some "B", session_type := "focused_study" },
       { time := "14:00", activity := "Study C", duration := 120,
         topic := some "C", session_type := "focused_study" }] := by
  refine ⟨?_, by decide, by decide, by decide⟩
  intro topics dh sw dl
  have hkeys := buildDays_keys topics dh sw (daysAvailable dl) 0 0 []
    (by simp) (by simp)
  have hsub : (create_study_schedule topics dh sw dl).map Prod.fst ⊆ weekNames :=
    fun k hk => hkeys.2 k hk
  have hsp := List.subperm_of_subset hkeys.1 hsub
  have hlen := hsp.length_le
  simpa using hlen

theorem listGet_cons {α : Type} (k : String) (vs : List α)
    (rest : List (String × List α)) (key : String) :
    listGet ((k, vs) :: rest) key = if k = key then vs else listGet rest key := by
  unfold listGet
  by_cases h : k = key
  · rw [List.find?_cons_of_pos _ (by simpa using h), if_pos h]
  · rw [List.find?_cons_of_neg _ (by simpa using h), if_neg h]

theorem listGet_dictAppend {α : Type} (sched : List (String × List α))
    (k : String) (v : α) (d : String) :
    listGet (dictAppend sched k v) d =
      if d = k then listGet sched d ++ [v] else listGet sched d := by
  induction sched with
  | nil =>
    by_cases h : d = k
    · simp [dictAppend, listGet_cons, listGet, h]
    · have h' : ¬ k = d := fun hh => h hh.symm
      simp [dictAppend, listGet_cons, listGet, h, h']
  | cons q rest ih =>
    obtain ⟨k0, vs⟩ := q
    unfold dictAppend
    split
    · next heq =>
      subst heq
      by_cases h : k0 = d
      · simp [listGet_cons, h]
      · have h' : ¬ d = k0 := fun hh => h hh.symm
        simp [listGet_cons, h, h']
    · next hne =>
      by_cases h : k0 = d
      · have hdk : ¬ d = k := fun hh => hne (h.trans hh)
        simp [listGet_cons, ih, h, hdk]
      · simp [listGet_cons, ih, h]

theorem Extends_refl (schedule : Sched) (days : List String) :
    Extends schedule days schedule :=
  fun _ => ⟨[], by simp, by simp⟩

theorem Extends_appendIfPresent (schedule : Sched) (days : List String)
    (enh : Sched) (key : String) (r : Session)
    (hx : Extends schedule days enh) (hr : ReviewOK schedule days key r) :
    Extends schedule days (appendIfPresent enh key r) := by
  intro d
  unfold appendIfPresent
  split
  · by_cases h : d = key
    · subst h
      rw [listGet_dictAppend, if_pos rfl]
      obtain ⟨extra, he, hall⟩ := hx d
      refine ⟨extra ++ [r], by rw [he, List.append_assoc], ?_⟩
      intro x hxm
      rcases List.mem_append.mp hxm with hm | hm
      · exact hall x hm
      · rw [List.mem_singleton.mp hm]
        exact hr
    · rw [listGet_dictAppend, if_neg h]
      exact hx d
  · exact hx d

theorem nodup_indexOf_getElem {l : List String} (hnd : l.Nodup) :
    ∀ (i : Nat) (h : i < l.length), l.indexOf l[i] = i := by
  induction l with
  | nil => intro i h; simp at h
  | cons a l ih =>
    intro i h
    cases i with
    | zero => simp
    | succ i =>
      have hi : i < l.length := by simpa using h
      have hx : (a :: l)[i + 1] = l[i] := by simp
      rw [hx]
      have hmem : l[i] ∈ l := List.getElem_mem hi
      have hne : a ≠ l[i] := by
        intro heq
        exact (List.nodup_cons.mp hnd).1 (heq ▸ hmem)
      rw [List.indexOf_cons_ne _ hne, ih (List.nodup_cons.mp hnd).2 i hi]

theorem Extends_step (schedule : Sched) (days : List String) (hnd : days.Nodup)
    (t : Option String) (fd : String)
    (ht : firstDayWith schedule days t = some fd) (k : Nat)
    (hk : k = 1 ∨ k = 3 ∨ k = 7) (enh : Sched) (hx : Extends schedule days enh) :
    Extends schedule days
      (if days.indexOf fd + k < days.length then
        appendIfPresent enh (days.getD (days.indexOf fd + k) "") (reviewSession t)
      else enh) := by
  split
  · next hlt =>
    apply Extends_appendIfPresent _ _ _ _ _ hx
    refine ⟨rfl, fd, ht, k, hk, hlt, ?_, ?_⟩
    · rw [List.getD_eq_getElem _ _ hlt]
      exact nodup_indexOf_getElem hnd _ hlt
    · rw [List.getD_eq_getElem _ _ hlt]
      rw [nodup_indexOf_getElem hnd _ hlt]
      omega
  · exact hx

theorem Extends_addReviews (schedule : Sched) (days : List String)
    (hnd : days.Nodup) (t : Option String) (fd : String)
    (ht : firstDayWith schedule days t = some fd)
    (enh : Sched) (hx : Extends schedule days enh) :
    Extends schedule days (addReviewsForTopic days enh t fd) := by
  unfold addReviewsForTopic
  simp only [List.foldl_cons, List.foldl_nil]
  exact Extends_step schedule days hnd t fd ht 7 (by norm_num) _
    (Extends_step schedule days hnd t fd ht 3 (by norm_num) _
      (Extends_step schedule days hnd t fd ht 1 (by norm_num) _ hx))

theorem Extends_foldl (schedule : Sched) (days : List String) (hnd : days.Nodup) :
    ∀ (pairs : List (Option String × String)) (enh : Sched),
      (∀ p ∈ pairs, firstDayWith schedule days p.1 = some p.2) →
      Extends schedule days enh →
      Extends schedule days
        (pairs.foldl (fun e p => addReviewsForTopic days e p.1 p.2) enh) := by
  intro pairs
  induction pairs with
  | nil => intro enh _ hx; exact hx
  | cons p rest ih =>
    intro enh hp hx
    simp only [List.foldl_cons]
    exact ih _ (fun q hq => hp q (List.mem_cons_of_mem _ hq))
      (Extends_addReviews _ _ hnd _ _ (hp p (List.mem_cons_self _ _)) _ hx)

theorem mem_recordTopics (day : String) (ss : List Session) :
    ∀ (acc : List (Option String × String)) (t : Option String) (fd : String),
      ((t, fd) ∈ recordTopics day acc ss ↔
        (t, fd) ∈ acc ∨
          ((acc.any (fun p => p.1 == t)) = false ∧ fd = day ∧
            ss.any (fun s => s.topic == t) = true)) := by
  induction ss with
  | nil => intro acc t fd; simp [recordTopics]
  | cons s ss ih =>
    intro acc t fd
    show (t, fd) ∈ recordTopics day
      (if acc.any (fun p => p.1 == s.topic) then acc else acc ++ [(s.topic, day)]) ss ↔ _
    by_cases hc : acc.any (fun p => p.1 == s.topic) = true
    · rw [if_pos hc, ih]
      by_cases ht : s.topic = t
      · subst ht
        have hfalse : acc.any (fun p => p.1 == s.topic) ≠ false := by
          rw [hc]; simp
        simp [List.any_cons, hfalse, hc]
      · have htb : (s.topic == t) = false := by simpa using ht
        simp [List.any_cons, htb]
    · rw [if_neg hc, ih]
      have hcf : acc.any (fun p => p.1 == s.topic) = false := by
        simp only [Bool.not_eq_true] at hc
        exact hc
      by_cases ht : s.topic = t
      · subst ht
        constructor
        · intro h
          rcases h with h | ⟨hkey, hfd, hany⟩
          · rcases List.mem_append.mp h with h | h
            · exact Or.inl h
            · have := List.mem_singleton.mp h
              have h1 : fd = day := by
                have := congrArg Prod.snd this
                simpa using this
              exact Or.inr ⟨hcf, h1, by simp [List.any_cons]⟩
          · rw [List.any_append] at hkey
            exact Or.inr ⟨by simpa using (Bool.or_eq_false_iff.mp hkey).1, hfd,
              by simp [List.any_cons]⟩
        · intro h
          rcases h with h | ⟨hkey, hfd, _⟩
          · exact Or.inl (List.mem_append_left _ h)
          · subst hfd
            exact Or.inl (List.mem_append_right _ (List.mem_singleton.mpr rfl))
      · have htb : (s.topic == t) = false := by simpa using ht
        have htb' : (t == s.topic) = false := by
          simpa using fun hh => ht hh.symm
        constructor
        · intro h
          rcases h with h | ⟨hkey, hfd, hany⟩
          · rcases List.mem_append.mp h with h | h
            · exact Or.inl h
            · have := List.mem_singleton.mp h
              have := congrArg Prod.fst this
              simp at this
              exact absurd this.symm ht
          · rw [List.any_append] at hkey
            exact Or.inr ⟨(Bool.or_eq_false_iff.mp hkey).1, hfd,
              by simp [List.any_cons, htb, hany]⟩
        · intro h
          rcases h with h | ⟨hkey, hfd, hany⟩
          · exact Or.inl (List.mem_append_left _ h)
          · refine Or.inr ⟨?_, hfd, ?_⟩
            · rw [List.any_append, hkey]
              simp [ht]
            · simpa [List.any_cons, htb] using hany

theorem orO_assoc (a b c : Option String) :
    orO (orO a b) c = orO a (orO b c) := by
  cases a <;> cases b <;> rfl

theorem mem_foldl_record (schedule : Sched) :
    ∀ (rest : List String) (acc : List (Option String × String))
      (g : Option String → Option String),
      (∀ t fd, ((t, fd) ∈ acc ↔ g t = some fd)) →
      ∀ (t : Option String) (fd : String),
        ((t, fd) ∈ rest.foldl (fun a d => recordTopics d a (listGet schedule d)) acc ↔
          orO (g t) (firstDayWith schedule rest t) = some fd) := by
  intro rest
  induction rest with
  | nil =>
    intro acc g hacc t fd
    simp only [List.foldl_nil, firstDayWith]
    rw [hacc]
    cases hg : g t <;> simp [orO]
  | cons d rest ih =>
    intro acc g hacc t fd
    simp only [List.foldl_cons]
    have hacc' : ∀ (t : Option String) (fd : String),
        ((t, fd) ∈ recordTopics d acc (listGet schedule d) ↔
          orO (g t) (if (listGet schedule d).any (fun s => s.topic == t) then some d
            else none) = some fd) := by
      intro t fd
      rw [mem_recordTopics]
      have hkey : acc.any (fun p => p.1 == t) = false ↔ g t = none := by
        constructor
        · intro h
          cases hg : g t with
          | none => rfl
          | some x =>
            have hmem : (t, x) ∈ acc := (hacc t x).mpr hg
            have : acc.any (fun p => p.1 == t) = true :=
              List.any_eq_true.mpr ⟨(t, x), hmem, by simp⟩
            rw [h] at this
            exact absurd this (by simp)
        · intro h
          by_contra hne
          have : acc.any (fun p => p.1 == t) = true := by
            cases hb : acc.any (fun p => p.1 == t)
            · exact absurd hb hne
            · rfl
          obtain ⟨p, hp, hpt⟩ := List.any_eq_true.mp this
          have hpt' : p.1 = t := by simpa using hpt
          have : (t, p.2) ∈ acc := by
            have : p = (t, p.2) := by
              rw [← hpt']
            rw [← this]
            exact hp
          rw [hacc t p.2] at this
          rw [h] at this
          exact absurd this (by simp)
      cases hg : g t with
      | some x =>
        have hne : acc.any (fun p => p.1 == t) ≠ false := by
          intro hf
          rw [hkey.mp hf] at hg
          exact absurd hg (by simp)
        have hb : acc.any (fun p => p.1 == t) = true := by
          cases hbb : acc.any (fun p => p.1 == t)
          · exact absurd hbb hne
          · rfl
        rw [hacc, hg]
        simp [orO, hb]
      | none =>
        have hb : acc.any (fun p => p.1 == t) = false := hkey.mpr hg
        rw [hacc, hg]
        cases hsess : (listGet schedule d).any (fun s => s.topic == t) <;>
          simp [orO, hb, eq_comm]
    rw [ih _ _ hacc' t fd]
    show orO (orO (g t) _) _ = some fd ↔ _
    rw [orO_assoc]
    have hfirst : firstDayWith schedule (d :: rest) t =
        if (listGet schedule d).any (fun s => s.topic == t) then some d
        else firstDayWith schedule rest t := rfl
    have hfw : orO (if (listGet schedule d).any (fun s => s.topic == t) then some d
        else none) (firstDayWith schedule rest t) =
        firstDayWith schedule (d :: rest) t := by
      rw [hfirst]
      cases hsess : (listGet schedule d).any (fun s => s.topic == t) <;> simp [orO]
    rw [hfw]

theorem mem_firstAppearances (schedule : Sched) (days : List String)
    (t : Option String) (fd : String) :
    ((t, fd) ∈ firstAppearances schedule days ↔
      firstDayWith schedule days t = some fd) := by
  have h := mem_foldl_record schedule days [] (fun _ => none) (by simp) t fd
  unfold firstAppearances
  rw [h]
  simp [orO]

theorem sortedKeys_nodup (schedule : Sched) (h : (schedule.map Prod.fst).Nodup) :
    (sortedKeys schedule).Nodup := by
  unfold sortedKeys
  exact ((List.perm_insertionSort _ _).nodup_iff).mpr h

/-- C4: for every schedule with distinct day keys and every topics argument,
apply_spaced_repetition only appends sessions to each day: every appended
session is a Review whose topic first appears (in the sorted day order the
function uses) on some day fd, and the review lands on the day sitting
exactly k places after fd for some k in {1, 3, 7}, strictly after fd and
within the schedule's day count — offsets past the last day are dropped. -/
theorem claim_C4 (schedule : Sched) (hk : (schedule.map Prod.fst).Nodup)
    (tps : List String) (d : String) :
    ∃ extra : List Session,
      listGet (apply_spaced_repetition schedule tps) d = listGet schedule d ++ extra ∧
      ∀ r ∈ extra, r.session_type = "review" ∧
        ∃ fd, firstDayWith schedule (sortedKeys schedule) r.topic = some fd ∧
          ∃ k, (k = 1 ∨ k = 3 ∨ k = 7) ∧
            (sortedKeys schedule).indexOf fd + k < (sortedKeys schedule).length ∧
            (sortedKeys schedule).indexOf d = (sortedKeys schedule).indexOf fd + k ∧
            (sortedKeys schedule).indexOf fd < (sortedKeys schedule).indexOf d := by
  have hnd := sortedKeys_nodup schedule hk
  have hx : Extends schedule (sortedKeys schedule)
      (apply_spaced_repetition schedule tps) := by
    unfold apply_spaced_repetition
    exact Extends_foldl schedule _ hnd _ schedule
      (fun p hp => (mem_firstAppearances schedule _ p.1 p.2).mp hp)
      (Extends_refl _ _)
  obtain ⟨extra, he, hall⟩ := hx d
  exact ⟨extra, he, fun r hr => hall r hr⟩

theorem claim_C4_witness :
    ∃ extra : List Session,
      listGet (apply_spaced_repetition
        [("D1", [{ time := "09:00", activity := "Study A", duration := 120,
                   topic := some "A", session_type := "focused_study" }]),
         ("D2", [])] []) "D2" =
      listGet
        [("D1", [{ time := "09:00", activity := "Study A", duration := 120,
                   topic := some "A", session_type := "focused_study" }]),
         ("D2", [])] "D2" ++ extra ∧
      ∀ r ∈ extra, r.session_type = "review" ∧
        ∃ fd, firstDayWith
            [("D1", [{ time := "09:00", activity := "Study A", duration := 120,
                       topic := some "A", session_type := "focused_study" }]),
             ("D2", [])]
            (sortedKeys
              [("D1", [{ time := "09:00", activity := "Study A", duration := 120,
                         topic := some "A", session_type := "focused_study" }]),
               ("D2", [])]) r.topic = some fd ∧
          ∃ k, (k = 1 ∨ k = 3 ∨ k = 7) ∧
            (sortedKeys
              [("D1", [{ time := "09:00", activity := "Study A", duration := 120,
                         topic := some "A", session_type := "focused_study" }]),
               ("D2", [])]).indexOf fd + k <
              (sortedKeys
                [("D1", [{ time := "09:00", activity := "Study A", duration := 120,
                           topic := some "A", session_type := "focused_study" }]),
                 ("D2", [])]).length ∧
            (sortedKeys
              [("D1", [{ time := "09:00", activity := "Study A", duration := 120,
                         topic := some "A", session_type := "focused_study" }]),
               ("D2", [])]).indexOf "D2" =
              (sortedKeys
                [("D1", [{ time := "09:00", activity := "Study A", duration := 120,
                           topic := some "A", session_type := "focused_study" }]),
                 ("D2", [])]).indexOf fd + k ∧
            (sortedKeys
              [("D1", [{ time := "09:00", activity := "Study A", duration := 120,
                         topic := some "A", session_type := "focused_study" }]),
               ("D2", [])]).indexOf fd <
              (sortedKeys
                [("D1", [{ time := "09:00", activity := "Study A", duration := 120,
                           topic := some "A", session_type := "focused_study" }]),
                 ("D2", [])]).indexOf "D2" :=
  claim_C4
    [("D1", [{ time := "09:00", activity := "Study A", duration := 120,
               topic := some "A", session_type := "focused_study" }]),
     ("D2", [])] (by decide) [] "D2"

end ScholarMate
